import Mathlib

/-!
Verification of the pricing-table transformer `transform_pricing_data` in
`streamlit_app.py`, as a shallow embedding.

Modelling choices, all driven by the source:
* a pandas cell is a `Cell`: a string, an integer, a float (modelled by an
  exact rational; every float literal appearing in this file is exactly
  representable in binary floating point, so exact rational arithmetic
  agrees with the float semantics on them), a timestamp, or a missing
  value (`NaN`/`NaT`, modelled by `Cell.na`);
* the input `DataFrame` is a `Table`: a list of column names plus a list
  of rows, a row being a list of cells aligned with the column names;
* fallible steps return `Except Err`; a raised pandas/Python exception is
  `Except.error`;
* `np.round` is round-half-to-even (`npRound`), and the subsequent
  `.astype(int)` is exact on the already-integral rounded value;
* `pd.to_datetime` / `.dt.strftime` are modelled only on the value kinds
  the transformer actually feeds them: timestamps, missing values and the
  divider rows' empty strings.  Free-form date strings and epoch integers
  are mapped to an error; no theorem below depends on those cells.
-/

/-- A pandas cell: string, int, float (as an exact rational), timestamp,
or missing (`NaN`). -/
inductive Cell where
  | s (v : String)
  | i (v : Int)
  | q (v : ℚ)
  | date (month day year : Nat)
  | na
deriving DecidableEq

/-- `pd.isna` on a cell: only a missing value is NA (empty strings are
not NA in pandas). -/
def Cell.isNA : Cell → Bool
  | .na => true
  | _ => false

/-- Fractional decimal digits of `x ∈ [0, 1)`; fuel-bounded.  Every
binary float has a terminating decimal expansion well inside the fuel. -/
def decDigits : Nat → ℚ → String
  | 0, _ => ""
  | fuel + 1, x =>
    if x = 0 then ""
    else
      toString (Int.floor (x * 10)) ++ decDigits fuel (x * 10 - Int.floor (x * 10))

/-- Python `str` of a nonnegative float. -/
def pyFloatStrNN (v : ℚ) : String :=
  if v - Int.floor v = 0 then toString (Int.floor v) ++ ".0"
  else toString (Int.floor v) ++ "." ++ decDigits 1200 (v - Int.floor v)

/-- Python `str` of a float. -/
def pyFloatStr (v : ℚ) : String :=
  if v < 0 then "-" ++ pyFloatStrNN (-v) else pyFloatStrNN v

/-- Python `str(...)` coercion of a cell, as applied to `row["Age"]` on
line 28 of the source.  A timestamp prints in an ISO-like form (the exact
spelling is irrelevant: it contains `-` and non-numeric parts, so the age
parser rejects it, exactly as `int()` would). -/
def pyStr : Cell → String
  | .s v => v
  | .i n => toString n
  | .q v => pyFloatStr v
  | .date m d y => toString y ++ "-" ++ toString m ++ "-" ++ toString d ++ " 00:00:00"
  | .na => "nan"

/-- Python `str.strip()`: drop leading and trailing whitespace.  Written
on the character list so that it computes by structural recursion. -/
def pyStrip (s : String) : String :=
  ⟨((s.data.dropWhile Char.isWhitespace).reverse.dropWhile Char.isWhitespace).reverse⟩

/-- Accumulate a run of decimal digits into a number; any non-digit
character fails. -/
def digitsVal : List Char → Nat → Option Nat
  | [], acc => some acc
  | c :: rest, acc =>
    if c.isDigit then digitsVal rest (acc * 10 + (c.toNat - 48)) else none

/-- A nonempty all-digit run, as a number. -/
def digits? : List Char → Option Nat
  | [] => none
  | l => digitsVal l 0

/-- Python `int(s)`: strip surrounding whitespace, optional sign, then a
nonempty digit run; anything else raises `ValueError` (modelled by
`none`). -/
def pyInt (s : String) : Option Int :=
  match (pyStrip s).data with
  | [] => none
  | c :: rest =>
    if c = '-' then (digits? rest).map fun n => -(n : Int)
    else if c = '+' then (digits? rest).map fun n => (n : Int)
    else (digits? (c :: rest)).map fun n => (n : Int)

/-- Python `s.split("-")` on the character level. -/
def splitChar : List Char → List (List Char)
  | [] => [[]]
  | c :: rest =>
    if c = '-' then [] :: splitChar rest
    else
      match splitChar rest with
      | [] => [[c]]
      | g :: gs => (c :: g) :: gs

/-- Python `s.split("-")`. -/
def splitOnDash (s : String) : List String := (splitChar s.data).map fun l => ⟨l⟩

/-- Python `"-" in s`. -/
def containsDash (s : String) : Bool := s.data.contains '-'

/-- Lines 31-34 of the source:
`if "-" in age_str: age_from, age_to = map(int, age_str.split("-"))`
`else: age_from = age_to = int(age_str)`.
`none` models the `ValueError` raised by `int` (or by unpacking a split
with more than two pieces). -/
def parseAge (ageStr : String) : Option (Int × Int) :=
  if containsDash ageStr then
    match splitOnDash ageStr with
    | [a, b] =>
      match pyInt a, pyInt b with
      | some x, some y => some (x, y)
      | _, _ => none
    | _ => none
  else
    (pyInt ageStr).map fun n => (n, n)

/-- Errors raised by the transformer: `KeyError` (missing column),
`ValueError` (unparseable value), `TypeError` (wrong cell type). -/
inductive Err where
  | keyError (col : String)
  | valueError
  | typeError
deriving DecidableEq

deriving instance DecidableEq for Except

/-- The input `DataFrame`: ordered column names and rows of cells. -/
structure Table where
  cols : List String
  rows : List (List Cell)
deriving DecidableEq

/-- Index of the first column with the given name, if any. -/
def colIdx? : List String → String → Option Nat
  | [], _ => none
  | c :: rest, name => if c = name then some 0 else (colIdx? rest name).map (· + 1)

/-- `row[name]` for a row of table `t`: `KeyError` when the column is
absent. -/
def getCellE (t : Table) (row : List Cell) (name : String) : Except Err Cell :=
  match colIdx? t.cols name with
  | none => .error (.keyError name)
  | some j => .ok ((row.get? j).getD Cell.na)

/-- `df[name]` as a column of cells: `KeyError` when absent. -/
def getColE (t : Table) (name : String) : Except Err (List Cell) :=
  match colIdx? t.cols name with
  | none => .error (.keyError name)
  | some j => .ok (t.rows.map fun r => (r.get? j).getD Cell.na)

/-- `Series.ffill`: every NA cell takes the nearest preceding non-NA
value; leading NAs stay NA. -/
def ffillList : List Cell → Option Cell → List Cell
  | [], _ => []
  | c :: rest, last =>
    if c.isNA then (last.getD Cell.na) :: ffillList rest last
    else c :: ffillList rest (some c)

/-- `df[name] = vals`: replace the named column's cells (the name is
always present at the call sites below). -/
def setCol (t : Table) (name : String) (vals : List Cell) : Table :=
  match colIdx? t.cols name with
  | none => t
  | some j => { t with rows := List.zipWith (fun r v => r.set j v) t.rows vals }

/-- One line of the block at source lines 12-15:
`input_df[name] = input_df[name].ffill()`. -/
def ffill1 (t : Table) (name : String) : Except Err Table :=
  match getColE t name with
  | .error e => .error e
  | .ok col => .ok (setCol t name (ffillList col none))

/-- Source lines 12-15: forward-fill the four metadata columns, in this
order; a missing column raises `KeyError`. -/
def ffillTable (t : Table) : Except Err Table :=
  match ffill1 t "PlanCode" with
  | .error e => .error e
  | .ok t1 =>
    match ffill1 t1 "RateZone" with
    | .error e => .error e
    | .ok t2 =>
      match ffill1 t2 "DateFrom" with
      | .error e => .error e
      | .ok t3 => ffill1 t3 "DateTo"

/-- Source line 21: `option_names = input_df.columns[1:-4]` (positions 1
through `len-5` inclusive). -/
def optionNames (t : Table) : List String :=
  (t.cols.drop 1).take (t.cols.length - 5)

/-- `np.round` on a float: round to the nearest integer, ties to the even
integer (IEEE round-half-even, which is what `np.round` implements).  The
following `.astype(int)` is exact on the result.  Computed from the
numerator and denominator with floor division so that it evaluates by
structural recursion: with `f = ⌊q⌋` and remainder `r = q.num - f*q.den`,
the fractional part `q - f` equals `r / q.den`, so `q - f < 1/2` iff
`2*r < q.den`, and likewise for the other comparisons. -/
def npRound (q : ℚ) : Int :=
  if 2 * (q.num - q.num.fdiv q.den * q.den) < (q.den : Int) then q.num.fdiv q.den
  else if (q.den : Int) < 2 * (q.num - q.num.fdiv q.den * q.den) then q.num.fdiv q.den + 1
  else if q.num.fdiv q.den % 2 = 0 then q.num.fdiv q.den else q.num.fdiv q.den + 1

/-- Reading a premium cell as a number for `np.round`: numerics pass
through; a non-numeric, non-NA cell raises `TypeError` (the NA case is
filtered out before this point, line 40). -/
def toNum : Cell → Except Err ℚ
  | .i n => .ok (n : ℚ)
  | .q v => .ok v
  | _ => .error .typeError

/-- One element of `output_data` (source lines 58-66 and 69): the eleven
cells `PlanCode, RateZone, AgeFrom, AgeTo, InvoiceComponent, Annual,
Renewal, Transfer, OptionName, DateFrom, DateTo`, in order. -/
structure RawRow where
  planCode : Cell
  rateZone : Cell
  ageFrom : Cell
  ageTo : Cell
  invoiceComponent : Cell
  annual : Cell
  renewal : Cell
  transfer : Cell
  optionName : Cell
  dateFrom : Cell
  dateTo : Cell
deriving DecidableEq

/-- An emitted data row (source lines 58-61 / 63-66): the rounded premium
is replicated into `Annual`, `Renewal` and `Transfer`. -/
def mkRaw (pc rz : Cell) (af bt : Int) (ic : String) (prem : Int) (opt : String)
    (dfr dto : Cell) : RawRow :=
  ⟨pc, rz, .i af, .i bt, .s ic, .i prem, .i prem, .i prem, .s opt, dfr, dto⟩

/-- Python `range(a, b + 1)` as a list of integers. -/
def intRange (a b : Int) : List Int :=
  (List.range (b + 1 - a).toNat).map fun k : Nat => a + (k : Int)

/-- The body of the inner loop, source lines 27-66, for one
`(row, option)` pair, given the rows already emitted for this option
(`rowCount`).  Returns the rows appended to `output_data` and the updated
counter.  The four metadata lookups are hoisted above the emission
branch; after the forward-fill step those columns always exist, so this
agrees with the source, which reads them inside the `append` calls. -/
def processRow (t : Table) (opt : String) (rowCount : Nat) (row : List Cell) :
    Except Err (List RawRow × Nat) :=
  match getCellE t row "Age" with
  | .error e => .error e
  | .ok ageCell =>
    match parseAge (pyStrip (pyStr ageCell)) with
    | none => .error .valueError
    | some (ageFrom, ageTo) =>
      match getCellE t row opt with
      | .error e => .error e
      | .ok premiumCell =>
        if premiumCell.isNA then .ok ([], rowCount)
        else
          match toNum premiumCell with
          | .error e => .error e
          | .ok p =>
            match getCellE t row "PlanCode", getCellE t row "RateZone",
                  getCellE t row "DateFrom", getCellE t row "DateTo" with
            | .ok pc, .ok rz, .ok dfr, .ok dto =>
              if (if rowCount < 7 then "Member Dependent" else "Member Premium")
                    = "Member Premium" ∨ (18 ≤ ageFrom ∧ ageFrom ≤ 23) then
                .ok ((intRange ageFrom ageTo).map fun a =>
                      mkRaw pc rz a a
                        (if rowCount < 7 then "Member Dependent" else "Member Premium")
                        (npRound p) opt dfr dto,
                     rowCount + 1)
              else
                .ok ([mkRaw pc rz ageFrom ageTo
                        (if rowCount < 7 then "Member Dependent" else "Member Premium")
                        (npRound p) opt dfr dto],
                     rowCount + 1)
            | .error e, _, _, _ => .error e
            | _, .error e, _, _ => .error e
            | _, _, .error e, _ => .error e
            | _, _, _, .error e => .error e

/-- The inner loop (source line 27) over all input rows for one option,
threading the per-option counter. -/
def processRows (t : Table) (opt : String) :
    List (List Cell) → Nat → Except Err (List RawRow × Nat)
  | [], count => .ok ([], count)
  | row :: rest, count =>
    match processRow t opt count row with
    | .error e => .error e
    | .ok (rs, count1) =>
      match processRows t opt rest count1 with
      | .error e => .error e
      | .ok (more, count2) => .ok (rs ++ more, count2)

/-- Source line 69: `output_data.append([""] * 11)`. -/
def dividerRaw : RawRow :=
  ⟨.s "", .s "", .s "", .s "", .s "", .s "", .s "", .s "", .s "", .s "", .s ""⟩

/-- One iteration of the outer loop (source lines 24-69): the counter is
reset to 0, all rows are processed, then the divider row is appended. -/
def processOption (t : Table) (opt : String) : Except Err (List RawRow) :=
  match processRows t opt t.rows 0 with
  | .error e => .error e
  | .ok (rs, _) => .ok (rs ++ [dividerRaw])

/-- The outer loop over a given option list. -/
def buildRawGo (t : Table) : List String → Except Err (List RawRow)
  | [] => .ok []
  | opt :: rest =>
    match processOption t opt with
    | .error e => .error e
    | .ok b =>
      match buildRawGo t rest with
      | .error e => .error e
      | .ok more => .ok (b ++ more)

/-- `output_data` after the loops of source lines 24-69. -/
def buildRaw (t : Table) : Except Err (List RawRow) :=
  buildRawGo t (optionNames t)

/-- `pd.to_numeric(·, errors="coerce")` on a cell of the `AgeFrom` /
`AgeTo` columns.  Those columns only ever hold integers (data rows) and
empty strings (divider rows); unparseable values coerce to NA rather
than raising.  Numeric strings are modelled through `pyInt` (the columns
never hold fractional strings), timestamps are never fed to it. -/
def toNumeric : Cell → Option ℚ
  | .i n => some (n : ℚ)
  | .q v => some v
  | .na => none
  | .s v => (pyInt v).map fun n => (n : ℚ)
  | .date _ _ _ => none

/-- `.astype("Int64")` on a coerced column value: NA stays NA, integral
values cast exactly, a fractional value cannot be cast safely. -/
def astypeInt64 : Option ℚ → Except Err (Option Int)
  | none => .ok none
  | some v => if v.den = 1 then .ok (some v.num) else .error .typeError

/-- Source lines 84-85: `pd.to_datetime(col).dt.strftime('%-m/%-d/%Y')`
on one cell.  A timestamp formats as `month/day/year` without leading
zeros; NA and the divider's empty string become `NaT`, which `strftime`
maps to `NaN`.  Other strings and epoch integers are outside the model
(the transformer never produces them in these columns). -/
def strftimeMDY : Cell → Except Err Cell
  | .date m d y => .ok (.s (toString m ++ "/" ++ toString d ++ "/" ++ toString y))
  | .na => .ok .na
  | .s v => if v = "" then .ok .na else .error .valueError
  | .i _ => .error .valueError
  | .q _ => .error .valueError

/-- A row of the final output table, after the post-processing of source
lines 77-85: nullable-integer ages, `InvoiceComponent` blanked on rows
with NA `AgeFrom`, formatted dates. -/
structure OutRow where
  planCode : Cell
  rateZone : Cell
  ageFrom : Option Int
  ageTo : Option Int
  invoiceComponent : Cell
  annual : Cell
  renewal : Cell
  transfer : Cell
  optionName : Cell
  dateFrom : Cell
  dateTo : Cell
deriving DecidableEq

/-- Post-processing of one raw row (source lines 77-85).  The source
applies each step column-wise; cell-wise application produces the same
rows on success and an error exactly when some cell is bad, which is all
the theorems below use. -/
def postprocess (r : RawRow) : Except Err OutRow :=
  match astypeInt64 (toNumeric r.ageFrom) with
  | .error e => .error e
  | .ok af =>
    match astypeInt64 (toNumeric r.ageTo) with
    | .error e => .error e
    | .ok bt =>
      match strftimeMDY r.dateFrom with
      | .error e => .error e
      | .ok dfr =>
        match strftimeMDY r.dateTo with
        | .error e => .error e
        | .ok dto =>
          .ok ⟨r.planCode, r.rateZone, af, bt,
               if af = none then Cell.s "" else r.invoiceComponent,
               r.annual, r.renewal, r.transfer, r.optionName, dfr, dto⟩

/-- Post-processing over the whole raw output list. -/
def mapPost : List RawRow → Except Err (List OutRow)
  | [] => .ok []
  | r :: rest =>
    match postprocess r with
    | .error e => .error e
    | .ok o =>
      match mapPost rest with
      | .error e => .error e
      | .ok os => .ok (o :: os)

/-- The final output table. -/
structure OutTable where
  rows : List OutRow
deriving DecidableEq

/-- Source lines 72-73: the fixed output column order. -/
def outputColumns : List String :=
  ["PlanCode", "RateZone", "AgeFrom", "AgeTo", "InvoiceComponent",
   "Annual", "Renewal", "Transfer", "OptionName", "DateFrom", "DateTo"]

/-- The whole of `transform_pricing_data`.  The first component of the
result is the input table as left behind by the in-place forward-fill of
lines 12-15 (the function mutates its argument there and only there). -/
def transform (t : Table) : Except Err (Table × OutTable) :=
  match ffillTable t with
  | .error e => .error e
  | .ok t1 =>
    match buildRaw t1 with
    | .error e => .error e
    | .ok raw =>
      match mapPost raw with
      | .error e => .error e
      | .ok rows => .ok (t1, ⟨rows⟩)

/-- What the divider row becomes after post-processing: ages NA,
`InvoiceComponent` forced to the empty string, dates `NaT → NaN`. -/
def postDivider : OutRow :=
  ⟨.s "", .s "", none, none, .s "", .s "", .s "", .s "", .s "", .na, .na⟩

/-- The spec's input invariant for one row: the `Age` cell is present and
parses to a pair `af ≤ bt`. -/
def validAgeRowB (t : Table) (row : List Cell) : Bool :=
  match getCellE t row "Age" with
  | .error _ => false
  | .ok c =>
    match parseAge (pyStrip (pyStr c)) with
    | none => false
    | some (af, bt) => decide (af ≤ bt)

/-- A table is rectangular: every row has one cell per column. -/
def wf (t : Table) : Prop := ∀ r ∈ t.rows, r.length = t.cols.length

/-- The classification pattern claimed for one option block: the emitted
rows split into one nonempty group per processed source row, and the
group produced with per-option counter value `count` is classified
`"Member Dependent"` when `count < 7` and `"Member Premium"` otherwise. -/
def groupsOK : Nat → List (List RawRow) → Prop
  | _, [] => True
  | count, g :: gs =>
    g ≠ [] ∧
    (∀ r ∈ g, r.invoiceComponent =
      .s (if count < 7 then "Member Dependent" else "Member Premium")) ∧
    groupsOK (count + 1) gs

/-! Basic list and column-lookup lemmas. -/

lemma listGet?_set_ne {α : Type _} (l : List α) (i j : Nat) (v : α) (h : i ≠ j) :
    (l.set i v).get? j = l.get? j := by
  induction l generalizing i j with
  | nil => simp
  | cons a as ih =>
    cases i with
    | zero => cases j with
      | zero => exact absurd rfl h
      | succ j => simp
    | succ i => cases j with
      | zero => simp
      | succ j => simpa using ih i j (by omega)

lemma listGet?_set_self {α : Type _} (l : List α) (i : Nat) (v : α) (h : i < l.length) :
    (l.set i v).get? i = some v := by
  induction l generalizing i with
  | nil => simp at h
  | cons a as ih =>
    cases i with
    | zero => simp
    | succ i => simpa using ih i (by simpa using h)

lemma colIdx?_eq_none {l : List String} {x : String} (h : x ∉ l) : colIdx? l x = none := by
  induction l with
  | nil => rfl
  | cons c rest ih =>
    simp only [colIdx?]
    rw [if_neg (by simp at h; exact fun hc => h.1 hc.symm), ih (by simp at h; exact h.2)]
    rfl

lemma colIdx?_isSome_of_mem {l : List String} {x : String} (h : x ∈ l) :
    ∃ i, colIdx? l x = some i := by
  induction l with
  | nil => simp at h
  | cons c rest ih =>
    by_cases hc : c = x
    · exact ⟨0, by simp [colIdx?, hc]⟩
    · have hx : x ∈ rest := by
        rcases List.mem_cons.mp h with h1 | h1
        · exact absurd h1.symm hc
        · exact h1
      rcases ih hx with ⟨i, hi⟩
      exact ⟨i + 1, by simp [colIdx?, hc, hi]⟩

lemma colIdx?_get {l : List String} {x : String} {i : Nat} (h : colIdx? l x = some i) :
    l.get? i = some x := by
  induction l generalizing i with
  | nil => simp [colIdx?] at h
  | cons c rest ih =>
    simp only [colIdx?] at h
    by_cases hc : c = x
    · rw [if_pos hc] at h
      cases h
      simpa using hc
    · rw [if_neg hc] at h
      cases hi : colIdx? rest x with
      | none => rw [hi] at h; simp at h
      | some j =>
        rw [hi] at h
        simp only [Option.map_some'] at h
        cases h
        simpa using ih hi

lemma colIdx?_lt {l : List String} {x : String} {i : Nat} (h : colIdx? l x = some i) :
    i < l.length := by
  have := colIdx?_get h
  by_contra hlt
  rw [List.get?_eq_none.mpr (by omega)] at this
  exact Option.noConfusion this

lemma colIdx?_mem {l : List String} {x : String} {i : Nat} (h : colIdx? l x = some i) :
    x ∈ l :=
  List.get?_mem (colIdx?_get h)

lemma colIdx?_ne {l : List String} {x y : String} {i j : Nat}
    (hx : colIdx? l x = some i) (hy : colIdx? l y = some j) (hxy : x ≠ y) : i ≠ j := by
  intro hij
  apply hxy
  have h1 := colIdx?_get hx
  have h2 := colIdx?_get hy
  rw [hij, h2] at h1
  exact (Option.some_inj.mp h1).symm

lemma ffillList_length (l : List Cell) (last : Option Cell) :
    (ffillList l last).length = l.length := by
  induction l generalizing last with
  | nil => rfl
  | cons c rest ih =>
    simp only [ffillList]
    split <;> simp [ih]

lemma mem_zipWith {α β γ : Type _} {f : α → β → γ} {c : γ} :
    ∀ {as : List α} {bs : List β}, c ∈ List.zipWith f as bs →
      ∃ a b, a ∈ as ∧ b ∈ bs ∧ c = f a b := by
  intro as
  induction as with
  | nil => intro bs h; simp at h
  | cons a as ih =>
    intro bs h
    cases bs with
    | nil => simp at h
    | cons b bs =>
      rcases List.mem_cons.mp h with h | h
      · exact ⟨a, b, List.mem_cons_self _ _, List.mem_cons_self _ _, h⟩
      · rcases ih h with ⟨a', b', ha, hb, hc⟩
        exact ⟨a', b', List.mem_cons_of_mem _ ha, List.mem_cons_of_mem _ hb, hc⟩

/-! Lemmas about column replacement and forward-filling. -/

lemma setCol_cols (t : Table) (name : String) (vals : List Cell) :
    (setCol t name vals).cols = t.cols := by
  unfold setCol
  split <;> rfl

lemma zipWith_set_map_ne {j i : Nat} (hji : j ≠ i) :
    ∀ (rows : List (List Cell)) (vals : List Cell), vals.length = rows.length →
      (List.zipWith (fun r v => r.set i v) rows vals).map (fun r => (r.get? j).getD Cell.na)
        = rows.map fun r => (r.get? j).getD Cell.na := by
  intro rows
  induction rows with
  | nil => intro vals _; simp
  | cons r rest ih =>
    intro vals hv
    cases vals with
    | nil => simp at hv
    | cons v vs =>
      simp only [List.zipWith_cons_cons, List.map_cons]
      rw [listGet?_set_ne r i j v (fun h => hji h.symm), ih vs (by simpa using hv)]

lemma getColE_setCol_ne {t : Table} {name m : String} {vals : List Cell}
    (hm : m ≠ name) (hv : vals.length = t.rows.length) :
    getColE (setCol t name vals) m = getColE t m := by
  unfold getColE
  rw [setCol_cols]
  cases hn : colIdx? t.cols name with
  | none => unfold setCol; rw [hn]
  | some i =>
    cases hmc : colIdx? t.cols m with
    | none => rfl
    | some j =>
      have hji : j ≠ i := colIdx?_ne hmc hn hm
      unfold setCol
      rw [hn]
      simp only
      rw [zipWith_set_map_ne hji t.rows vals hv]

lemma zipWith_set_map_self {i : Nat} :
    ∀ (rows : List (List Cell)) (vals : List Cell), vals.length = rows.length →
      (∀ r ∈ rows, i < r.length) →
      (List.zipWith (fun r v => r.set i v) rows vals).map (fun r => (r.get? i).getD Cell.na)
        = vals := by
  intro rows
  induction rows with
  | nil =>
    intro vals hv _
    rw [List.length_nil, List.length_eq_zero] at hv
    subst hv
    simp
  | cons r rest ih =>
    intro vals hv hlen
    cases vals with
    | nil => simp at hv
    | cons v vs =>
      simp only [List.zipWith_cons_cons, List.map_cons]
      rw [listGet?_set_self r i v (hlen r (List.mem_cons_self _ _))]
      simp only [Option.getD_some]
      rw [ih vs (by simpa using hv) (fun r hr => hlen r (List.mem_cons_of_mem _ hr))]

lemma getColE_setCol_self {t : Table} {name : String} {vals : List Cell}
    (hwf : wf t) (hv : vals.length = t.rows.length) (hmem : name ∈ t.cols) :
    getColE (setCol t name vals) name = .ok vals := by
  rcases colIdx?_isSome_of_mem hmem with ⟨i, hi⟩
  have hlt : i < t.cols.length := colIdx?_lt hi
  unfold getColE
  rw [setCol_cols, hi]
  unfold setCol
  rw [hi]
  simp only [Except.ok.injEq]
  exact zipWith_set_map_self t.rows vals hv (fun r hr => (hwf r hr) ▸ hlt)

lemma wf_setCol {t : Table} {name : String} {vals : List Cell} (hwf : wf t) :
    wf (setCol t name vals) := by
  intro r hr
  rw [setCol_cols]
  unfold setCol at hr
  cases hn : colIdx? t.cols name with
  | none => rw [hn] at hr; exact hwf r hr
  | some i =>
    rw [hn] at hr
    simp only at hr
    rcases mem_zipWith hr with ⟨r0, v, hr0, _, rfl⟩
    rw [List.length_set]
    exact hwf r0 hr0

lemma setCol_rows_length {t : Table} {name : String} {vals : List Cell}
    (hv : vals.length = t.rows.length) :
    (setCol t name vals).rows.length = t.rows.length := by
  unfold setCol
  split
  · rfl
  · simp [hv]

lemma getColE_length {t : Table} {name : String} {col : List Cell}
    (h : getColE t name = .ok col) : col.length = t.rows.length := by
  unfold getColE at h
  cases hn : colIdx? t.cols name with
  | none => rw [hn] at h; exact Except.noConfusion h
  | some j => rw [hn] at h; cases h; simp

lemma ffill1_ok_elim {t t1 : Table} {name : String} (h : ffill1 t name = .ok t1) :
    ∃ col, getColE t name = .ok col ∧ t1 = setCol t name (ffillList col none) := by
  unfold ffill1 at h
  cases hc : getColE t name with
  | error e => rw [hc] at h; exact Except.noConfusion h
  | ok col => rw [hc] at h; cases h; exact ⟨col, rfl, rfl⟩

lemma ffill1_error {t : Table} {name : String} (h : name ∉ t.cols) :
    ffill1 t name = .error (.keyError name) := by
  unfold ffill1 getColE
  rw [colIdx?_eq_none h]

lemma ffill1_exists {t : Table} {name : String} (h : name ∈ t.cols) :
    ∃ t1, ffill1 t name = .ok t1 := by
  rcases colIdx?_isSome_of_mem h with ⟨i, hi⟩
  unfold ffill1 getColE
  rw [hi]
  exact ⟨_, rfl⟩

lemma ffill1_cols {t t1 : Table} {name : String} (h : ffill1 t name = .ok t1) :
    t1.cols = t.cols := by
  rcases ffill1_ok_elim h with ⟨col, _, rfl⟩
  exact setCol_cols _ _ _

lemma ffill1_rows_length {t t1 : Table} {name : String} (h : ffill1 t name = .ok t1) :
    t1.rows.length = t.rows.length := by
  rcases ffill1_ok_elim h with ⟨col, hcol, rfl⟩
  exact setCol_rows_length (by rw [ffillList_length]; exact getColE_length hcol)

lemma ffill1_wf {t t1 : Table} {name : String} (hwf : wf t) (h : ffill1 t name = .ok t1) :
    wf t1 := by
  rcases ffill1_ok_elim h with ⟨col, _, rfl⟩
  exact wf_setCol hwf

lemma ffill1_getColE_ne {t t1 : Table} {name m : String} (hm : m ≠ name)
    (h : ffill1 t name = .ok t1) : getColE t1 m = getColE t m := by
  rcases ffill1_ok_elim h with ⟨col, hcol, rfl⟩
  exact getColE_setCol_ne hm (by rw [ffillList_length]; exact getColE_length hcol)

lemma ffill1_getColE_self {t t1 : Table} {name : String} (hwf : wf t)
    (h : ffill1 t name = .ok t1) :
    ∃ col, getColE t name = .ok col ∧ getColE t1 name = .ok (ffillList col none) := by
  rcases ffill1_ok_elim h with ⟨col, hcol, rfl⟩
  have hmem : name ∈ t.cols := by
    unfold getColE at hcol
    cases hn : colIdx? t.cols name with
    | none => rw [hn] at hcol; exact Except.noConfusion hcol
    | some j => exact colIdx?_mem hn
  exact ⟨col, hcol,
    getColE_setCol_self hwf (by rw [ffillList_length]; exact getColE_length hcol) hmem⟩

/-! Aggregate lemmas about the forward-fill step (source lines 12-15). -/

/-- The four metadata column names, in the order they are forward-filled. -/
def metaNames : List String := ["PlanCode", "RateZone", "DateFrom", "DateTo"]

lemma ffillTable_ok_elim {t t4 : Table} (h : ffillTable t = .ok t4) :
    ∃ t1 t2 t3, ffill1 t "PlanCode" = .ok t1 ∧ ffill1 t1 "RateZone" = .ok t2 ∧
      ffill1 t2 "DateFrom" = .ok t3 ∧ ffill1 t3 "DateTo" = .ok t4 := by
  unfold ffillTable at h
  split at h
  · exact Except.noConfusion h
  · rename_i t1 h1
    split at h
    · exact Except.noConfusion h
    · rename_i t2 h2
      split at h
      · exact Except.noConfusion h
      · rename_i t3 h3
        exact ⟨t1, t2, t3, h1, h2, h3, h⟩

lemma ffillTable_cols {t t4 : Table} (h : ffillTable t = .ok t4) : t4.cols = t.cols := by
  rcases ffillTable_ok_elim h with ⟨t1, t2, t3, h1, h2, h3, h4⟩
  rw [ffill1_cols h4, ffill1_cols h3, ffill1_cols h2, ffill1_cols h1]

lemma ffillTable_rows_length {t t4 : Table} (h : ffillTable t = .ok t4) :
    t4.rows.length = t.rows.length := by
  rcases ffillTable_ok_elim h with ⟨t1, t2, t3, h1, h2, h3, h4⟩
  rw [ffill1_rows_length h4, ffill1_rows_length h3, ffill1_rows_length h2,
    ffill1_rows_length h1]

lemma ffillTable_wf {t t4 : Table} (hwf : wf t) (h : ffillTable t = .ok t4) : wf t4 := by
  rcases ffillTable_ok_elim h with ⟨t1, t2, t3, h1, h2, h3, h4⟩
  exact ffill1_wf (ffill1_wf (ffill1_wf (ffill1_wf hwf h1) h2) h3) h4

lemma ffillTable_exists {t : Table} (hp : "PlanCode" ∈ t.cols) (hr : "RateZone" ∈ t.cols)
    (hdf : "DateFrom" ∈ t.cols) (hdt : "DateTo" ∈ t.cols) :
    ∃ t4, ffillTable t = .ok t4 := by
  rcases ffill1_exists hp with ⟨t1, h1⟩
  rcases @ffill1_exists t1 "RateZone" (by rw [ffill1_cols h1]; exact hr)
    with ⟨t2, h2⟩
  rcases @ffill1_exists t2 "DateFrom"
    (by rw [ffill1_cols h2, ffill1_cols h1]; exact hdf) with ⟨t3, h3⟩
  rcases @ffill1_exists t3 "DateTo"
    (by rw [ffill1_cols h3, ffill1_cols h2, ffill1_cols h1]; exact hdt) with ⟨t4, h4⟩
  refine ⟨t4, ?_⟩
  simp only [ffillTable, h1, h2, h3, h4]

lemma ffillTable_error_planCode {t : Table} (h : "PlanCode" ∉ t.cols) :
    ffillTable t = .error (.keyError "PlanCode") := by
  unfold ffillTable
  rw [ffill1_error h]

lemma ffillTable_getColE_ne {t t4 : Table} {m : String} (hm : m ∉ metaNames)
    (h : ffillTable t = .ok t4) : getColE t4 m = getColE t m := by
  rcases ffillTable_ok_elim h with ⟨t1, t2, t3, h1, h2, h3, h4⟩
  have hp : m ≠ "PlanCode" := fun hx => hm (by simp [metaNames, hx])
  have hr : m ≠ "RateZone" := fun hx => hm (by simp [metaNames, hx])
  have hdf : m ≠ "DateFrom" := fun hx => hm (by simp [metaNames, hx])
  have hdt : m ≠ "DateTo" := fun hx => hm (by simp [metaNames, hx])
  rw [ffill1_getColE_ne hdt h4, ffill1_getColE_ne hdf h3,
    ffill1_getColE_ne hr h2, ffill1_getColE_ne hp h1]

lemma ffillTable_meta {t t4 : Table} (hwf : wf t) (h : ffillTable t = .ok t4) :
    ∀ name ∈ metaNames,
      ∃ col, getColE t name = .ok col ∧ getColE t4 name = .ok (ffillList col none) := by
  rcases ffillTable_ok_elim h with ⟨t1, t2, t3, h1, h2, h3, h4⟩
  have hwf1 : wf t1 := ffill1_wf hwf h1
  have hwf2 : wf t2 := ffill1_wf hwf1 h2
  have hwf3 : wf t3 := ffill1_wf hwf2 h3
  intro name hname
  simp only [metaNames, List.mem_cons, List.not_mem_nil, or_false] at hname
  rcases hname with rfl | rfl | rfl | rfl
  · rcases ffill1_getColE_self hwf h1 with ⟨col, hc, hc1⟩
    refine ⟨col, hc, ?_⟩
    rw [ffill1_getColE_ne (by decide) h4, ffill1_getColE_ne (by decide) h3,
      ffill1_getColE_ne (by decide) h2]
    exact hc1
  · rcases ffill1_getColE_self hwf1 h2 with ⟨col, hc, hc1⟩
    refine ⟨col, ?_, ?_⟩
    · rw [← ffill1_getColE_ne (by decide) h1]; exact hc
    · rw [ffill1_getColE_ne (by decide) h4, ffill1_getColE_ne (by decide) h3]
      exact hc1
  · rcases ffill1_getColE_self hwf2 h3 with ⟨col, hc, hc1⟩
    refine ⟨col, ?_, ?_⟩
    · rw [← ffill1_getColE_ne (by decide) h1, ← ffill1_getColE_ne (by decide) h2]
      exact hc
    · rw [ffill1_getColE_ne (by decide) h4]
      exact hc1
  · rcases ffill1_getColE_self hwf3 h4 with ⟨col, hc, hc1⟩
    refine ⟨col, ?_, hc1⟩
    rw [← ffill1_getColE_ne (by decide) h1, ← ffill1_getColE_ne (by decide) h2,
      ← ffill1_getColE_ne (by decide) h3]
    exact hc

/-! Rounding lemmas: `npRound` is the nearest integer, ties to even. -/

lemma npRound_fdiv (q : ℚ) : q.num.fdiv q.den = ⌊q⌋ := by
  rw [Int.fdiv_eq_ediv _ (by positivity), Rat.floor_def]

lemma sub_floor_mul_den (q : ℚ) :
    (q - (⌊q⌋ : ℚ)) * (q.den : ℚ) = ((q.num - ⌊q⌋ * (q.den : Int) : Int) : ℚ) := by
  have hden : ((q.den : ℚ)) ≠ 0 := by positivity
  have hqd : q * (q.den : ℚ) = (q.num : ℚ) := by
    have h0 := Rat.num_div_den q
    calc q * (q.den : ℚ) = ((q.num : ℚ) / (q.den : ℚ)) * (q.den : ℚ) := by rw [h0]
      _ = (q.num : ℚ) := div_mul_cancel₀ _ hden
  push_cast
  rw [sub_mul, hqd]

lemma npRound_r_bounds (q : ℚ) :
    0 ≤ q.num - ⌊q⌋ * (q.den : Int) ∧ q.num - ⌊q⌋ * (q.den : Int) < (q.den : Int) := by
  have hpos : (0 : Int) < (q.den : Int) := by exact_mod_cast q.den_pos
  have hfd : ⌊q⌋ = q.num / (q.den : Int) := Rat.floor_def
  have he := Int.ediv_add_emod q.num (q.den : Int)
  have h0 := Int.emod_nonneg q.num (ne_of_gt hpos)
  have h1 := Int.emod_lt_of_pos q.num hpos
  have hcomm : (q.den : Int) * (q.num / (q.den : Int)) = (q.num / (q.den : Int)) * q.den :=
    mul_comm _ _
  constructor <;> rw [hfd] <;> linarith

lemma npRound_frac_nonneg (q : ℚ) : (0 : ℚ) ≤ q - (⌊q⌋ : ℚ) := by
  have hdpos : (0 : ℚ) < (q.den : ℚ) := by positivity
  have h2 : (0 : ℚ) * q.den ≤ (q - (⌊q⌋ : ℚ)) * q.den := by
    rw [sub_floor_mul_den, zero_mul]
    exact_mod_cast (npRound_r_bounds q).1
  exact le_of_mul_le_mul_right h2 hdpos

lemma npRound_frac_lt_one (q : ℚ) : q - (⌊q⌋ : ℚ) < 1 := by
  have hdpos : (0 : ℚ) < (q.den : ℚ) := by positivity
  have h2 : (q - (⌊q⌋ : ℚ)) * q.den < 1 * q.den := by
    rw [sub_floor_mul_den, one_mul]
    exact_mod_cast (npRound_r_bounds q).2
  exact lt_of_mul_lt_mul_right h2 (le_of_lt hdpos)

lemma npRound_near (q : ℚ) :
    q - (npRound q : ℚ) ≤ 1 / 2 ∧ (npRound q : ℚ) - q ≤ 1 / 2 := by
  have hdpos : (0 : ℚ) < (q.den : ℚ) := by positivity
  have hkey := sub_floor_mul_den q
  have hnn := npRound_frac_nonneg q
  have hlt1 := npRound_frac_lt_one q
  unfold npRound
  rw [npRound_fdiv]
  split
  · rename_i hlt
    have hltQ : 2 * ((q.num - ⌊q⌋ * (q.den : Int) : Int) : ℚ) < (q.den : ℚ) := by
      exact_mod_cast hlt
    have h2 : (q - (⌊q⌋ : ℚ)) * q.den < (1 / 2) * q.den := by rw [hkey]; linarith
    have hfr : q - (⌊q⌋ : ℚ) < 1 / 2 := lt_of_mul_lt_mul_right h2 (le_of_lt hdpos)
    exact ⟨by linarith, by linarith⟩
  · split
    · rename_i hlt hgt
      have hgtQ : (q.den : ℚ) < 2 * ((q.num - ⌊q⌋ * (q.den : Int) : Int) : ℚ) := by
        exact_mod_cast hgt
      have h2 : (1 / 2) * (q.den : ℚ) < (q - (⌊q⌋ : ℚ)) * q.den := by rw [hkey]; linarith
      have hfr : 1 / 2 < q - (⌊q⌋ : ℚ) := lt_of_mul_lt_mul_right h2 (le_of_lt hdpos)
      constructor <;> push_cast <;> linarith
    · rename_i hlt hgt
      have heqI : 2 * (q.num - ⌊q⌋ * (q.den : Int)) = (q.den : Int) := by omega
      have heqQ : 2 * ((q.num - ⌊q⌋ * (q.den : Int) : Int) : ℚ) = (q.den : ℚ) := by
        exact_mod_cast heqI
      have h2 : (q - (⌊q⌋ : ℚ)) * q.den = (1 / 2) * q.den := by rw [hkey]; linarith
      have hfr : q - (⌊q⌋ : ℚ) = 1 / 2 := mul_right_cancel₀ (ne_of_gt hdpos) h2
      split <;> constructor <;> push_cast <;> linarith

lemma npRound_tie_even (q : ℚ)
    (h : q - (npRound q : ℚ) = 1 / 2 ∨ (npRound q : ℚ) - q = 1 / 2) :
    npRound q % 2 = 0 := by
  have hdpos : (0 : ℚ) < (q.den : ℚ) := by positivity
  have hkey := sub_floor_mul_den q
  have hnn := npRound_frac_nonneg q
  have hlt1 := npRound_frac_lt_one q
  unfold npRound at h ⊢
  rw [npRound_fdiv] at h ⊢
  split at h
  · rename_i hlt
    have hltQ : 2 * ((q.num - ⌊q⌋ * (q.den : Int) : Int) : ℚ) < (q.den : ℚ) := by
      exact_mod_cast hlt
    have h2 : (q - (⌊q⌋ : ℚ)) * q.den < (1 / 2) * q.den := by rw [hkey]; linarith
    have hfr : q - (⌊q⌋ : ℚ) < 1 / 2 := lt_of_mul_lt_mul_right h2 (le_of_lt hdpos)
    rcases h with h | h <;> linarith
  · split at h
    · rename_i hlt hgt
      have hgtQ : (q.den : ℚ) < 2 * ((q.num - ⌊q⌋ * (q.den : Int) : Int) : ℚ) := by
        exact_mod_cast hgt
      have h2 : (1 / 2) * (q.den : ℚ) < (q - (⌊q⌋ : ℚ)) * q.den := by rw [hkey]; linarith
      have hfr : 1 / 2 < q - (⌊q⌋ : ℚ) := lt_of_mul_lt_mul_right h2 (le_of_lt hdpos)
      rcases h with h | h <;> push_cast at h <;> linarith
    · rename_i hlt hgt
      rw [if_neg hlt, if_neg hgt]
      split
      · assumption
      · rename_i hodd
        omega

/-! The master characterization of one loop-body execution
(source lines 27-66). -/

lemma processRow_ok_elim {t : Table} {opt : String} {count : Nat} {row : List Cell}
    {rs : List RawRow} {n : Nat} (h : processRow t opt count row = .ok (rs, n)) :
    ∃ ageCell af bt premCell,
      getCellE t row "Age" = .ok ageCell ∧
      parseAge (pyStrip (pyStr ageCell)) = some (af, bt) ∧
      getCellE t row opt = .ok premCell ∧
      ((premCell.isNA = true ∧ rs = [] ∧ n = count) ∨
       (premCell.isNA = false ∧ n = count + 1 ∧
        ∃ q pc rz dfr dto,
          toNum premCell = .ok q ∧
          getCellE t row "PlanCode" = .ok pc ∧
          getCellE t row "RateZone" = .ok rz ∧
          getCellE t row "DateFrom" = .ok dfr ∧
          getCellE t row "DateTo" = .ok dto ∧
          ((7 ≤ count ∨ (18 ≤ af ∧ af ≤ 23)) →
            rs = (intRange af bt).map fun a =>
              mkRaw pc rz a a (if count < 7 then "Member Dependent" else "Member Premium")
                (npRound q) opt dfr dto) ∧
          ((count < 7 ∧ ¬(18 ≤ af ∧ af ≤ 23)) →
            rs = [mkRaw pc rz af bt "Member Dependent" (npRound q) opt dfr dto]))) := by
  unfold processRow at h
  split at h
  · exact Except.noConfusion h
  rename_i ageCell hAge
  split at h
  · exact Except.noConfusion h
  rename_i af bt hparse
  split at h
  · exact Except.noConfusion h
  rename_i premCell hprem
  refine ⟨ageCell, af, bt, premCell, hAge, hparse, hprem, ?_⟩
  split at h
  · rename_i hna
    simp only [Except.ok.injEq, Prod.mk.injEq] at h
    exact Or.inl ⟨hna, h.1.symm, h.2.symm⟩
  rename_i hna
  right
  refine ⟨by simpa using hna, ?_⟩
  split at h
  · exact Except.noConfusion h
  rename_i q hq
  split at h
  case _ pc rz dfr dto hpc hrz hdfr hdto =>
    have hne : ¬("Member Dependent" = "Member Premium") := by decide
    by_cases hc7 : count < 7
    · rw [if_pos hc7] at h
      by_cases hp : 18 ≤ af ∧ af ≤ 23
      · rw [if_pos (Or.inr hp)] at h
        simp only [Except.ok.injEq, Prod.mk.injEq] at h
        refine ⟨h.2.symm, q, pc, rz, dfr, dto, hq, hpc, hrz, hdfr, hdto, ?_, ?_⟩
        · intro _
          rw [← h.1, if_pos hc7]
        · intro hgrp
          exact absurd hp hgrp.2
      · rw [if_neg (by rintro (hs | hp2); exacts [hne hs, hp hp2])] at h
        simp only [Except.ok.injEq, Prod.mk.injEq] at h
        refine ⟨h.2.symm, q, pc, rz, dfr, dto, hq, hpc, hrz, hdfr, hdto, ?_, ?_⟩
        · intro hcase
          rcases hcase with hge | hp2
          · omega
          · exact absurd hp2 hp
        · intro _
          exact h.1.symm
    · rw [if_neg hc7, if_pos (Or.inl rfl)] at h
      simp only [Except.ok.injEq, Prod.mk.injEq] at h
      refine ⟨h.2.symm, q, pc, rz, dfr, dto, hq, hpc, hrz, hdfr, hdto, ?_, ?_⟩
      · intro _
        rw [← h.1, if_neg hc7]
      · intro hgrp
        exact absurd hgrp.1 hc7
  all_goals exact Except.noConfusion h

/-- Forward direction for the skip path (source lines 40-41): a missing
premium emits nothing and leaves the counter unchanged. -/
lemma processRow_skip {t : Table} {opt : String} {count : Nat} {row : List Cell}
    {c pc : Cell} {p : Int × Int} (hAge : getCellE t row "Age" = .ok c)
    (hparse : parseAge (pyStrip (pyStr c)) = some p)
    (hprem : getCellE t row opt = .ok pc) (hna : pc.isNA = true) :
    processRow t opt count row = .ok ([], count) := by
  obtain ⟨af, bt⟩ := p
  simp only [processRow, hAge, hparse, hprem, hna, if_true]

/-! Lemmas about the per-option loop (source lines 24-69). -/

lemma intRange_ne_nil {a b : Int} (h : a ≤ b) : intRange a b ≠ [] := by
  unfold intRange
  simp only [ne_eq, List.map_eq_nil_iff, List.range_eq_nil]
  omega

lemma validAgeRowB_elim {t : Table} {row : List Cell} {c : Cell} {af bt : Int}
    (hAge : getCellE t row "Age" = .ok c)
    (hparse : parseAge (pyStrip (pyStr c)) = some (af, bt))
    (hv : validAgeRowB t row = true) : af ≤ bt := by
  unfold validAgeRowB at hv
  rw [hAge] at hv
  simp only at hv
  rw [hparse] at hv
  simpa using hv

lemma processRows_groups {t : Table} {opt : String} :
    ∀ (rows : List (List Cell)) (count : Nat) (out : List RawRow) (n : Nat),
      processRows t opt rows count = .ok (out, n) →
      (∀ row ∈ rows, validAgeRowB t row = true) →
      ∃ groups : List (List RawRow),
        out = groups.join ∧ n = count + groups.length ∧ groupsOK count groups := by
  intro rows
  induction rows with
  | nil =>
    intro count out n h _
    simp only [processRows, Except.ok.injEq, Prod.mk.injEq] at h
    exact ⟨[], by simp [← h.1], by simp [← h.2], trivial⟩
  | cons row rest ih =>
    intro count out n h hv
    unfold processRows at h
    split at h
    · exact Except.noConfusion h
    rename_i rs count1 hrow
    split at h
    · exact Except.noConfusion h
    rename_i more count2 hrest
    simp only [Except.ok.injEq, Prod.mk.injEq] at h
    obtain ⟨hout, hn⟩ := h
    rcases processRow_ok_elim hrow with ⟨ageCell, af, bt, premCell, hAge, hparse, _, hcases⟩
    have hvtail : ∀ r ∈ rest, validAgeRowB t r = true :=
      fun r hr => hv r (List.mem_cons_of_mem _ hr)
    rcases hcases with ⟨_, hrs, hcount⟩ |
      ⟨_, hcount, q, pc, rz, dfr, dto, _, _, _, _, _, hexp, hgrp⟩
    · rcases ih count1 more count2 hrest hvtail with ⟨groups, hg1, hg2, hg3⟩
      rw [hcount] at hg3
      exact ⟨groups, by rw [← hout, hrs, hg1]; rfl, by omega, hg3⟩
    · rcases ih count1 more count2 hrest hvtail with ⟨groups, hg1, hg2, hg3⟩
      rw [hcount] at hg3
      have hle : af ≤ bt := validAgeRowB_elim hAge hparse (hv row (List.mem_cons_self _ _))
      have hic : ∀ r ∈ rs, r.invoiceComponent =
          .s (if count < 7 then "Member Dependent" else "Member Premium") := by
        by_cases hc : 7 ≤ count ∨ (18 ≤ af ∧ af ≤ 23)
        · rw [hexp hc]
          intro r hr
          rcases List.mem_map.mp hr with ⟨a, _, rfl⟩
          rfl
        · push_neg at hc
          rw [hgrp ⟨by omega, fun h18 => by
            have := hc.2 h18.1
            omega⟩]
          intro r hr
          rcases List.mem_singleton.mp hr with rfl
          rw [if_pos (by omega)]
          rfl
      have hne : rs ≠ [] := by
        by_cases hc : 7 ≤ count ∨ (18 ≤ af ∧ af ≤ 23)
        · rw [hexp hc]
          simpa using intRange_ne_nil hle
        · push_neg at hc
          rw [hgrp ⟨by omega, fun h18 => by
            have := hc.2 h18.1
            omega⟩]
          simp
      refine ⟨rs :: groups, ?_, ?_, hne, hic, hg3⟩
      · rw [← hout, hg1]
        rfl
      · simp only [List.length_cons]
        omega

lemma processRow_ages {t : Table} {opt : String} {count : Nat} {row : List Cell}
    {rs : List RawRow} {n : Nat} (h : processRow t opt count row = .ok (rs, n)) :
    ∀ r ∈ rs, ∃ a b, r.ageFrom = Cell.i a ∧ r.ageTo = Cell.i b := by
  rcases processRow_ok_elim h with ⟨ageCell, af, bt, premCell, _, _, _, hcases⟩
  rcases hcases with ⟨_, hrs, _⟩ | ⟨_, _, q, pc, rz, dfr, dto, _, _, _, _, _, hexp, hgrp⟩
  · rw [hrs]
    intro r hr
    simp at hr
  · intro r hr
    by_cases hc : 7 ≤ count ∨ (18 ≤ af ∧ af ≤ 23)
    · rw [hexp hc] at hr
      rcases List.mem_map.mp hr with ⟨a, _, rfl⟩
      exact ⟨a, a, rfl, rfl⟩
    · push_neg at hc
      rw [hgrp ⟨by omega, fun h18 => by
        have := hc.2 h18.1
        omega⟩] at hr
      rcases List.mem_singleton.mp hr with rfl
      exact ⟨af, bt, rfl, rfl⟩

lemma processRow_ages_le {t : Table} {opt : String} {count : Nat} {row : List Cell}
    {rs : List RawRow} {n : Nat} (h : processRow t opt count row = .ok (rs, n))
    (hv : validAgeRowB t row = true) :
    ∀ r ∈ rs, ∃ a b, r.ageFrom = Cell.i a ∧ r.ageTo = Cell.i b ∧ a ≤ b := by
  rcases processRow_ok_elim h with ⟨ageCell, af, bt, premCell, hAge, hparse, _, hcases⟩
  have hle : af ≤ bt := validAgeRowB_elim hAge hparse hv
  rcases hcases with ⟨_, hrs, _⟩ | ⟨_, _, q, pc, rz, dfr, dto, _, _, _, _, _, hexp, hgrp⟩
  · rw [hrs]
    intro r hr
    simp at hr
  · intro r hr
    by_cases hc : 7 ≤ count ∨ (18 ≤ af ∧ af ≤ 23)
    · rw [hexp hc] at hr
      rcases List.mem_map.mp hr with ⟨a, _, rfl⟩
      exact ⟨a, a, rfl, rfl, le_refl a⟩
    · push_neg at hc
      rw [hgrp ⟨by omega, fun h18 => by
        have := hc.2 h18.1
        omega⟩] at hr
      rcases List.mem_singleton.mp hr with rfl
      exact ⟨af, bt, rfl, rfl, hle⟩

lemma processRows_mem {t : Table} {opt : String} :
    ∀ {rows : List (List Cell)} {count : Nat} {out : List RawRow} {n : Nat},
      processRows t opt rows count = .ok (out, n) →
      ∀ r ∈ out, ∃ row ∈ rows, ∃ count1 rs n1,
        processRow t opt count1 row = .ok (rs, n1) ∧ r ∈ rs := by
  intro rows
  induction rows with
  | nil =>
    intro count out n h r hr
    simp only [processRows, Except.ok.injEq, Prod.mk.injEq] at h
    rw [← h.1] at hr
    simp at hr
  | cons row rest ih =>
    intro count out n h r hr
    unfold processRows at h
    split at h
    · exact Except.noConfusion h
    rename_i rs count1 hrow
    split at h
    · exact Except.noConfusion h
    rename_i more count2 hrest
    simp only [Except.ok.injEq, Prod.mk.injEq] at h
    rw [← h.1] at hr
    rcases List.mem_append.mp hr with hr | hr
    · exact ⟨row, List.mem_cons_self _ _, count, rs, count1, hrow, hr⟩
    · rcases ih hrest r hr with ⟨row', hrow', c1, rs', n1, hpr, hmem⟩
      exact ⟨row', List.mem_cons_of_mem _ hrow', c1, rs', n1, hpr, hmem⟩

lemma processOption_ok_elim {t : Table} {opt : String} {rs : List RawRow}
    (h : processOption t opt = .ok rs) :
    ∃ out n, processRows t opt t.rows 0 = .ok (out, n) ∧ rs = out ++ [dividerRaw] := by
  unfold processOption at h
  split at h
  · exact Except.noConfusion h
  rename_i out n hpr
  simp only [Except.ok.injEq] at h
  exact ⟨out, n, hpr, h.symm⟩

lemma buildRawGo_blocks {t : Table} (P : RawRow → Prop)
    (hP : ∀ (opt : String) (out : List RawRow) (n : Nat),
      processRows t opt t.rows 0 = .ok (out, n) → ∀ r ∈ out, P r) :
    ∀ (opts : List String) (raw : List RawRow), buildRawGo t opts = .ok raw →
      ∃ bs : List (List RawRow), bs.length = opts.length ∧
        raw = (bs.map fun b => b ++ [dividerRaw]).join ∧
        ∀ b ∈ bs, ∀ r ∈ b, P r := by
  intro opts
  induction opts with
  | nil =>
    intro raw h
    simp only [buildRawGo, Except.ok.injEq] at h
    refine ⟨[], rfl, by simp [← h], by simp⟩
  | cons opt rest ih =>
    intro raw h
    unfold buildRawGo at h
    split at h
    · exact Except.noConfusion h
    rename_i b hb
    split at h
    · exact Except.noConfusion h
    rename_i more hmore
    simp only [Except.ok.injEq] at h
    rcases processOption_ok_elim hb with ⟨out, n, hpr, rfl⟩
    rcases ih more hmore with ⟨bs, hlen, hjoin, hPbs⟩
    refine ⟨out :: bs, by simp [hlen], ?_, ?_⟩
    · rw [← h, hjoin]
      simp
    · intro b2 hb2 r hr
      rcases List.mem_cons.mp hb2 with rfl | hb2
      · exact hP opt b2 n hpr r hr
      · exact hPbs b2 hb2 r hr

/-! Lemmas about the post-processing pass (source lines 77-85). -/

lemma postprocess_divider : postprocess dividerRaw = .ok postDivider := by decide

lemma postprocess_int_ages {r : RawRow} {a b : Int} {o : OutRow}
    (ha : r.ageFrom = Cell.i a) (hb : r.ageTo = Cell.i b)
    (h : postprocess r = .ok o) :
    o.ageFrom = some a ∧ o.ageTo = some b := by
  unfold postprocess at h
  rw [ha, hb] at h
  simp only [toNumeric, astypeInt64, Rat.den_intCast, Rat.num_intCast, if_true] at h
  split at h
  · exact Except.noConfusion h
  rename_i dfr hdfr
  split at h
  · exact Except.noConfusion h
  rename_i dto hdto
  simp only [Except.ok.injEq] at h
  rw [← h]
  exact ⟨rfl, rfl⟩

lemma mapPost_append_elim :
    ∀ {xs ys : List RawRow} {zs : List OutRow}, mapPost (xs ++ ys) = .ok zs →
      ∃ us vs, zs = us ++ vs ∧ mapPost xs = .ok us ∧ mapPost ys = .ok vs := by
  intro xs
  induction xs with
  | nil =>
    intro ys zs h
    exact ⟨[], zs, rfl, rfl, h⟩
  | cons x xs ih =>
    intro ys zs h
    rw [List.cons_append] at h
    unfold mapPost at h
    split at h
    · exact Except.noConfusion h
    rename_i o ho
    split at h
    · exact Except.noConfusion h
    rename_i os hos
    simp only [Except.ok.injEq] at h
    rcases ih hos with ⟨us, vs, rfl, hxs, hys⟩
    refine ⟨o :: us, vs, by rw [← h]; rfl, ?_, hys⟩
    unfold mapPost
    rw [ho, hxs]

lemma mapPost_mem :
    ∀ {xs : List RawRow} {ys : List OutRow}, mapPost xs = .ok ys →
      ∀ y ∈ ys, ∃ x ∈ xs, postprocess x = .ok y := by
  intro xs
  induction xs with
  | nil =>
    intro ys h y hy
    simp only [mapPost, Except.ok.injEq] at h
    rw [← h] at hy
    simp at hy
  | cons x xs ih =>
    intro ys h y hy
    unfold mapPost at h
    split at h
    · exact Except.noConfusion h
    rename_i o ho
    split at h
    · exact Except.noConfusion h
    rename_i os hos
    simp only [Except.ok.injEq] at h
    rw [← h] at hy
    rcases List.mem_cons.mp hy with rfl | hy
    · exact ⟨x, List.mem_cons_self _ _, ho⟩
    · rcases ih hos y hy with ⟨x', hx', hpp⟩
      exact ⟨x', List.mem_cons_of_mem _ hx', hpp⟩

lemma mapPost_blocks :
    ∀ (bs : List (List RawRow)) {rows : List OutRow},
      mapPost ((bs.map fun b => b ++ [dividerRaw]).join) = .ok rows →
      ∃ pbs : List (List OutRow), pbs.length = bs.length ∧
        rows = (pbs.map fun b => b ++ [postDivider]).join ∧
        ∀ pb ∈ pbs, ∃ b ∈ bs, mapPost b = .ok pb := by
  intro bs
  induction bs with
  | nil =>
    intro rows h
    simp only [List.map_nil, List.join, mapPost, Except.ok.injEq] at h
    exact ⟨[], rfl, by simp [← h], by simp⟩
  | cons b bs ih =>
    intro rows h
    simp only [List.map_cons, List.join_cons] at h
    rcases mapPost_append_elim h with ⟨us, vs, rfl, hus, hvs⟩
    rcases mapPost_append_elim hus with ⟨pb, dv, rfl, hpb, hdv⟩
    have hdv2 : dv = [postDivider] := by
      have : mapPost [dividerRaw] = .ok [postDivider] := by decide
      rw [this] at hdv
      exact (Except.ok.injEq _ _ ▸ hdv.symm :)
    rcases ih hvs with ⟨pbs, hlen, hjoin, hmem⟩
    refine ⟨pb :: pbs, by simp [hlen], ?_, ?_⟩
    · rw [hjoin, hdv2]
      simp
    · intro pb2 hpb2
      rcases List.mem_cons.mp hpb2 with rfl | hpb2
      · exact ⟨b, List.mem_cons_self _ _, hpb⟩
      · rcases hmem pb2 hpb2 with ⟨b2, hb2, hmp⟩
        exact ⟨b2, List.mem_cons_of_mem _ hb2, hmp⟩

/-! Lemmas connecting the phases of `transform`. -/

lemma transform_ok_elim {t t' : Table} {out : OutTable} (h : transform t = .ok (t', out)) :
    ffillTable t = .ok t' ∧ ∃ raw, buildRaw t' = .ok raw ∧ mapPost raw = .ok out.rows := by
  unfold transform at h
  split at h
  · exact Except.noConfusion h
  rename_i t1 hf
  split at h
  · exact Except.noConfusion h
  rename_i raw hraw
  split at h
  · exact Except.noConfusion h
  rename_i rows hrows
  simp only [Except.ok.injEq, Prod.mk.injEq] at h
  obtain ⟨h1, h2⟩ := h
  subst h1
  refine ⟨hf, raw, hraw, ?_⟩
  rw [← h2]
  exact hrows

lemma getCellE_cols_eq {t t' : Table} (h : t'.cols = t.cols) (row : List Cell) (m : String) :
    getCellE t' row m = getCellE t row m := by
  unfold getCellE
  rw [h]

lemma ffill1_rows_corr {t t1 : Table} {name : String} (h : ffill1 t name = .ok t1) :
    ∀ r1 ∈ t1.rows, ∃ r ∈ t.rows, ∀ m, m ≠ name → getCellE t1 r1 m = getCellE t r m := by
  rcases ffill1_ok_elim h with ⟨col, hcol, rfl⟩
  intro r1 hr1
  have hcols : (setCol t name (ffillList col none)).cols = t.cols := setCol_cols _ _ _
  unfold setCol at hr1
  cases hn : colIdx? t.cols name with
  | none =>
    rw [hn] at hr1
    exact ⟨r1, hr1, fun m _ => getCellE_cols_eq hcols r1 m⟩
  | some i =>
    rw [hn] at hr1
    simp only at hr1
    rcases mem_zipWith hr1 with ⟨r, v, hr, _, rfl⟩
    refine ⟨r, hr, fun m hm => ?_⟩
    rw [getCellE_cols_eq hcols]
    unfold getCellE
    cases hmc : colIdx? t.cols m with
    | none => rfl
    | some j =>
      dsimp only
      rw [listGet?_set_ne r i j v (fun hij => colIdx?_ne hmc hn hm hij.symm)]

lemma ffillTable_rows_corr {t t4 : Table} (h : ffillTable t = .ok t4) :
    ∀ r4 ∈ t4.rows, ∃ r ∈ t.rows, ∀ m, m ∉ metaNames → getCellE t4 r4 m = getCellE t r m := by
  rcases ffillTable_ok_elim h with ⟨t1, t2, t3, h1, h2, h3, h4⟩
  intro r4 hr4
  rcases ffill1_rows_corr h4 r4 hr4 with ⟨r3, hr3, hc4⟩
  rcases ffill1_rows_corr h3 r3 hr3 with ⟨r2, hr2, hc3⟩
  rcases ffill1_rows_corr h2 r2 hr2 with ⟨r1, hr1, hc2⟩
  rcases ffill1_rows_corr h1 r1 hr1 with ⟨r, hr, hc1⟩
  refine ⟨r, hr, fun m hm => ?_⟩
  have hp : m ≠ "PlanCode" := fun hx => hm (by simp [metaNames, hx])
  have hrz : m ≠ "RateZone" := fun hx => hm (by simp [metaNames, hx])
  have hdf : m ≠ "DateFrom" := fun hx => hm (by simp [metaNames, hx])
  have hdt : m ≠ "DateTo" := fun hx => hm (by simp [metaNames, hx])
  rw [hc4 m hdt, hc3 m hdf, hc2 m hrz, hc1 m hp]

lemma validAgeRowB_congr {t t' : Table} {r r' : List Cell}
    (h : getCellE t' r' "Age" = getCellE t r "Age") :
    validAgeRowB t' r' = validAgeRowB t r := by
  unfold validAgeRowB
  rw [h]

lemma ffillTable_validAges {t t4 : Table} (h : ffillTable t = .ok t4)
    (hv : ∀ row ∈ t.rows, validAgeRowB t row = true) :
    ∀ row ∈ t4.rows, validAgeRowB t4 row = true := by
  intro r4 hr4
  rcases ffillTable_rows_corr h r4 hr4 with ⟨r, hr, hc⟩
  rw [validAgeRowB_congr (hc "Age" (by decide))]
  exact hv r hr

/-! Concrete inputs used by the witnesses and counterexamples. -/

/-- The float `450.5`, given in lowest terms so that it evaluates without
rational normalization. -/
def premHalf : ℚ :=
  ⟨901, 2, by decide, Nat.Coprime.symm ((Nat.prime_two.coprime_iff_not_dvd).mpr (by decide))⟩

lemma premHalf_eq : premHalf = 901 / 2 := by
  norm_num [premHalf, Rat.mk'_eq_divInt, Rat.divInt_eq_div]

/-- A table without the four metadata columns. -/
def exMissingMeta : Table := ⟨["Age", "$500"], [[.s "34", .i 100]]⟩

/-- One age row with premium `450.5` for option `$500`. -/
def exHalf : Table :=
  ⟨["Age", "$500", "PlanCode", "RateZone", "DateFrom", "DateTo"],
   [[.s "30", .q premHalf, .s "P", .s "Z", .date 1 1 2024, .date 2 1 2024]]⟩

/-- One age row with integer premium 100. -/
def exOne : Table :=
  ⟨["Age", "$500", "PlanCode", "RateZone", "DateFrom", "DateTo"],
   [[.s "30", .i 100, .s "P", .s "Z", .date 3 1 2024, .date 12 31 2024]]⟩

/-- Eight single-age rows, so one option block crosses the 7-row
classification boundary. -/
def exEight : Table :=
  ⟨["Age", "$500", "PlanCode", "RateZone", "DateFrom", "DateTo"],
   [[.s "30", .i 100, .s "P", .s "Z", .date 1 1 2024, .date 2 1 2024],
    [.s "31", .i 100, .s "P", .s "Z", .date 1 1 2024, .date 2 1 2024],
    [.s "32", .i 100, .s "P", .s "Z", .date 1 1 2024, .date 2 1 2024],
    [.s "33", .i 100, .s "P", .s "Z", .date 1 1 2024, .date 2 1 2024],
    [.s "34", .i 100, .s "P", .s "Z", .date 1 1 2024, .date 2 1 2024],
    [.s "35", .i 100, .s "P", .s "Z", .date 1 1 2024, .date 2 1 2024],
    [.s "36", .i 100, .s "P", .s "Z", .date 1 1 2024, .date 2 1 2024],
    [.s "37", .i 100, .s "P", .s "Z", .date 1 1 2024, .date 2 1 2024]]⟩

/-- The rows `exEight`'s option block emits (computed; pinned by the
witness below). -/
def exEightOut : List RawRow :=
  match processRows exEight "$500" exEight.rows 0 with
  | .ok (o, _) => o
  | .error _ => []

/-- An age-range row, for the explosion-policy witness. -/
def exRowRange : List Cell :=
  [.s "18-23", .i 100, .s "P", .s "Z", .date 1 1 2024, .date 2 1 2024]

/-- A row whose premium cell is missing. -/
def exRowNA : List Cell :=
  [.s "40", .na, .s "P", .s "Z", .date 1 1 2024, .date 2 1 2024]

/-- A table whose `Age` column is absent (but metadata and one option
column are present). -/
def exNoAge : Table :=
  ⟨["X", "$500", "PlanCode", "RateZone", "DateFrom", "DateTo"],
   [[.s "1", .i 100, .s "P", .s "Z", .date 1 1 2024, .date 2 1 2024]]⟩

/-- A table with no deductible-option columns. -/
def exNoOptions : Table :=
  ⟨["Age", "PlanCode", "RateZone", "DateFrom", "DateTo"],
   [[.s "30", .s "P", .s "Z", .date 1 1 2024, .date 2 1 2024]]⟩

/-! Claim C1. -/

/-- Claim C1 as stated is false: on an input table that lacks the four
metadata columns, `transform` does not succeed — line 12 of the source
(`input_df["PlanCode"].ffill()`) raises `KeyError` immediately.  Concrete
refutation: a two-column table `Age, $500` makes `transform` raise
`KeyError("PlanCode")` instead of producing a table of rows with empty
metadata fields. -/
theorem c1_missing_metadata_errors_cx :
    transform exMissingMeta = .error (.keyError "PlanCode") := by decide

/-- Claim C1 (amended): absence of the metadata columns is an error, not
legal input.  If `PlanCode` is absent the whole transformation fails with
`KeyError("PlanCode")` and returns no output table. -/
theorem c1_amended_missing_metadata_is_error (t : Table) (h : "PlanCode" ∉ t.cols) :
    transform t = .error (.keyError "PlanCode") := by
  simp only [transform, ffillTable_error_planCode h]

/-- Witness for the amended C1 at a concrete table. -/
theorem c1_amended_missing_metadata_is_error_witness :
    "PlanCode" ∉ exMissingMeta.cols ∧
      transform exMissingMeta = .error (.keyError "PlanCode") :=
  ⟨by decide, c1_amended_missing_metadata_is_error exMissingMeta (by decide)⟩

/-! Claim C2. -/

/-- Claim C2 as stated is false: `np.round` (line 44 of the source)
rounds ties to the even integer, not away from zero.  Concrete
refutation: premium `450.5` produces `450` in the `Annual`, `Renewal`
and `Transfer` fields, not the `451` the claim requires. -/
theorem c2_half_to_even_cx :
    transform exHalf = .ok (exHalf,
      ⟨[⟨.s "P", .s "Z", some 30, some 30, .s "Member Dependent", .i 450, .i 450, .i 450,
         .s "$500", .s "1/1/2024", .s "2/1/2024"⟩, postDivider]⟩) ∧
      (Cell.i 450 : Cell) ≠ .i 451 := ⟨by decide, by decide⟩

/-- Claim C2 (amended): for every processed `(row, option)` pair the
premium is rounded deterministically to the nearest integer with ties to
the **even** integer (`np.round`'s IEEE half-even rule), and that rounded
value appears in the `Annual`, `Renewal` and `Transfer` fields of every
row emitted for the pair. -/
theorem c2_amended_round_half_even {t : Table} {opt : String} {count : Nat}
    {row : List Cell} {rs : List RawRow} {n : Nat}
    (h : processRow t opt count row = .ok (rs, n)) :
    ∀ r ∈ rs, ∃ premCell q,
      getCellE t row opt = .ok premCell ∧ toNum premCell = .ok q ∧
      r.annual = .i (npRound q) ∧ r.renewal = .i (npRound q) ∧ r.transfer = .i (npRound q) ∧
      (q - (npRound q : ℚ) ≤ 1 / 2 ∧ (npRound q : ℚ) - q ≤ 1 / 2) ∧
      ((q - (npRound q : ℚ) = 1 / 2 ∨ (npRound q : ℚ) - q = 1 / 2) → npRound q % 2 = 0) := by
  rcases processRow_ok_elim h with ⟨ageCell, af, bt, premCell, _, _, hprem, hcases⟩
  rcases hcases with ⟨_, hrs, _⟩ | ⟨_, _, q, pc, rz, dfr, dto, hq, _, _, _, _, hexp, hgrp⟩
  · rw [hrs]
    intro r hr
    simp at hr
  · intro r hr
    refine ⟨premCell, q, hprem, hq, ?_⟩
    by_cases hc : 7 ≤ count ∨ (18 ≤ af ∧ af ≤ 23)
    · rw [hexp hc] at hr
      rcases List.mem_map.mp hr with ⟨a, _, rfl⟩
      exact ⟨rfl, rfl, rfl, npRound_near q, npRound_tie_even q⟩
    · push_neg at hc
      rw [hgrp ⟨by omega, fun h18 => by
        have := hc.2 h18.1
        omega⟩] at hr
      rcases List.mem_singleton.mp hr with rfl
      exact ⟨rfl, rfl, rfl, npRound_near q, npRound_tie_even q⟩

/-- Witness for the amended C2: the single row emitted for premium
`450.5` carries `450` in all three premium fields, and `450.5` is within
one half of `450`, with the tie broken to the even integer. -/
theorem c2_amended_round_half_even_witness :
    processRow exHalf "$500" 0 [.s "30", .q premHalf, .s "P", .s "Z",
        .date 1 1 2024, .date 2 1 2024] =
      .ok ([mkRaw (.s "P") (.s "Z") 30 30 "Member Dependent" 450 "$500"
        (.date 1 1 2024) (.date 2 1 2024)], 1) ∧
    (∃ premCell q,
      getCellE exHalf [.s "30", .q premHalf, .s "P", .s "Z",
        .date 1 1 2024, .date 2 1 2024] "$500" = .ok premCell ∧
      toNum premCell = .ok q ∧
      (mkRaw (.s "P") (.s "Z") 30 30 "Member Dependent" 450 "$500"
        (.date 1 1 2024) (.date 2 1 2024)).annual = .i (npRound q) ∧
      (mkRaw (.s "P") (.s "Z") 30 30 "Member Dependent" 450 "$500"
        (.date 1 1 2024) (.date 2 1 2024)).renewal = .i (npRound q) ∧
      (mkRaw (.s "P") (.s "Z") 30 30 "Member Dependent" 450 "$500"
        (.date 1 1 2024) (.date 2 1 2024)).transfer = .i (npRound q) ∧
      (q - (npRound q : ℚ) ≤ 1 / 2 ∧ (npRound q : ℚ) - q ≤ 1 / 2) ∧
      ((q - (npRound q : ℚ) = 1 / 2 ∨ (npRound q : ℚ) - q = 1 / 2) → npRound q % 2 = 0)) :=
  ⟨by decide,
   @c2_amended_round_half_even exHalf "$500" 0
     [.s "30", .q premHalf, .s "P", .s "Z", .date 1 1 2024, .date 2 1 2024]
     [mkRaw (.s "P") (.s "Z") 30 30 "Member Dependent" 450 "$500"
       (.date 1 1 2024) (.date 2 1 2024)] 1 (by decide)
     (mkRaw (.s "P") (.s "Z") 30 30 "Member Dependent" 450 "$500"
       (.date 1 1 2024) (.date 2 1 2024)) (by decide)⟩

/-! Claim C3. -/

/-- Claim C3: within one option's block (whose per-option counter starts
at 0 — `processOption` runs `processRows` with counter 0, independent of
any other option), the emitted rows decompose into one nonempty group per
source row that produced output, skipped rows contributing no group; the
group of the `k`-th producing row (0-based, which is the counter value at
classification time) is classified `"Member Dependent"` for `k < 7` and
`"Member Premium"` afterwards (`groupsOK 0`), and the final counter
equals the number of producing rows. -/
theorem c3_first_seven_member_dependent (t : Table) (opt : String)
    (out : List RawRow) (n : Nat)
    (h : processRows t opt t.rows 0 = .ok (out, n))
    (hv : ∀ row ∈ t.rows, validAgeRowB t row = true) :
    processOption t opt = .ok (out ++ [dividerRaw]) ∧
    ∃ groups : List (List RawRow),
      out = groups.join ∧ groups.length = n ∧ groupsOK 0 groups := by
  constructor
  · unfold processOption
    rw [h]
  · rcases processRows_groups t.rows 0 out n h hv with ⟨groups, hg1, hg2, hg3⟩
    exact ⟨groups, hg1, by omega, hg3⟩

/-- Witness for C3 on an eight-row block: the counter ends at 8, and the
block splits into 8 groups, the first 7 `"Member Dependent"` and the
eighth `"Member Premium"`. -/
theorem c3_first_seven_member_dependent_witness :
    processRows exEight "$500" exEight.rows 0 = .ok (exEightOut, 8) ∧
    (processOption exEight "$500" = .ok (exEightOut ++ [dividerRaw]) ∧
     ∃ groups : List (List RawRow),
       exEightOut = groups.join ∧ groups.length = 8 ∧ groupsOK 0 groups) :=
  ⟨by decide, c3_first_seven_member_dependent exEight "$500" exEightOut 8
    (by decide) (by decide)⟩

/-! Claim C4. -/

/-- Claim C4, the explosion policy of source lines 56-66: for a processed
`(row, option)` pair with a present premium, if the row is classified
`"Member Premium"` (counter at least 7) or it is `"Member Dependent"`
with `18 ≤ AgeFrom ≤ 23`, one row is emitted per integer age from
`AgeFrom` to `AgeTo` inclusive with both age fields equal to that age;
otherwise exactly one row is emitted preserving the original range. -/
theorem c4_explosion_policy {t : Table} {opt : String} {count : Nat} {row : List Cell}
    {rs : List RawRow} {n : Nat} {c premCell : Cell} {af bt : Int}
    (h : processRow t opt count row = .ok (rs, n))
    (hAge : getCellE t row "Age" = .ok c)
    (hparse : parseAge (pyStrip (pyStr c)) = some (af, bt))
    (hprem : getCellE t row opt = .ok premCell) (hna : premCell.isNA = false) :
    ((7 ≤ count ∨ (18 ≤ af ∧ af ≤ 23)) →
      rs.map (fun r => (r.ageFrom, r.ageTo)) =
        (intRange af bt).map fun a => (Cell.i a, Cell.i a)) ∧
    ((count < 7 ∧ ¬(18 ≤ af ∧ af ≤ 23)) →
      rs.map (fun r => (r.ageFrom, r.ageTo)) = [(Cell.i af, Cell.i bt)]) := by
  rcases processRow_ok_elim h with ⟨c2, af2, bt2, premCell2, hAge2, hparse2, hprem2, hcases⟩
  have hceq : c = c2 := by
    have h1 : (Except.ok c : Except Err Cell) = .ok c2 := by rw [← hAge, hAge2]
    injection h1
  subst hceq
  have h2 : (af, bt) = (af2, bt2) := Option.some_inj.mp (hparse.symm.trans hparse2)
  injection h2 with ha hb
  subst ha
  subst hb
  have hpeq : premCell = premCell2 := by
    have h1 : (Except.ok premCell : Except Err Cell) = .ok premCell2 := by
      rw [← hprem, hprem2]
    injection h1
  subst hpeq
  rcases hcases with ⟨hna2, _, _⟩ | ⟨_, _, q, pc, rz, dfr, dto, _, _, _, _, _, hexp, hgrp⟩
  · rw [hna2] at hna
    exact Bool.noConfusion hna
  · constructor
    · intro hcase
      rw [hexp hcase, List.map_map]
      rfl
    · intro hcase
      rw [hgrp hcase]
      rfl

/-- Witness for C4: the range `18-23` at counter 0 (Member Dependent,
lower bound inside `[18, 23]`) explodes into six single-age rows. -/
theorem c4_explosion_policy_witness :
    processRow exHalf "$500" 0 exRowRange =
      .ok ((intRange 18 23).map fun a =>
        mkRaw (.s "P") (.s "Z") a a "Member Dependent" 100 "$500"
          (.date 1 1 2024) (.date 2 1 2024), 1) ∧
    (((7 ≤ 0 ∨ (18 ≤ (18 : Int) ∧ (18 : Int) ≤ 23)) →
      ((intRange 18 23).map fun a =>
        mkRaw (.s "P") (.s "Z") a a "Member Dependent" 100 "$500"
          (.date 1 1 2024) (.date 2 1 2024)).map (fun r => (r.ageFrom, r.ageTo)) =
        (intRange 18 23).map fun a => (Cell.i a, Cell.i a)) ∧
     ((0 < 7 ∧ ¬(18 ≤ (18 : Int) ∧ (18 : Int) ≤ 23)) →
      ((intRange 18 23).map fun a =>
        mkRaw (.s "P") (.s "Z") a a "Member Dependent" 100 "$500"
          (.date 1 1 2024) (.date 2 1 2024)).map (fun r => (r.ageFrom, r.ageTo)) =
        [(Cell.i 18, Cell.i 23)])) :=
  ⟨by decide,
   @c4_explosion_policy exHalf "$500" 0 exRowRange
     ((intRange 18 23).map fun a =>
       mkRaw (.s "P") (.s "Z") a a "Member Dependent" 100 "$500"
         (.date 1 1 2024) (.date 2 1 2024)) 1 (.s "18-23") (.i 100) 18 23
     (by decide) (by decide) (by decide) (by decide) (by decide)⟩

/-! Claim C5. -/

/-- Claim C5 as stated is false in one detail: after the date formatting
of source lines 84-85, the divider row's `DateFrom`/`DateTo` are `NaN`
(the empty string becomes `NaT`, which `strftime` maps to `NaN`), not
empty strings.  Concrete refutation: the trailing divider of a one-row
transform carries `NaN` date fields. -/
theorem c5_divider_dates_nan_cx :
    transform exOne = .ok (exOne,
      ⟨[⟨.s "P", .s "Z", some 30, some 30, .s "Member Dependent", .i 100, .i 100, .i 100,
         .s "$500", .s "3/1/2024", .s "12/31/2024"⟩, postDivider]⟩) ∧
    postDivider.dateFrom = Cell.na ∧ postDivider.dateTo = Cell.na ∧
    Cell.na ≠ Cell.s "" :=
  ⟨by decide, rfl, rfl, by decide⟩

/-- Claim C5 (amended): in every successful transform the output is one
block per option followed by exactly one divider row each, including a
trailing divider after the last option; block rows are never dividers
(their `AgeFrom` is non-null), and every field of the divider row is
empty or null — `InvoiceComponent`, `OptionName` and the premium fields
are empty strings, `AgeFrom`/`AgeTo` are null, and `DateFrom`/`DateTo`
are null (`NaN`), not empty strings. -/
theorem c5_amended_divider_rows {t t' : Table} {out : OutTable}
    (h : transform t = .ok (t', out)) :
    ∃ blocks : List (List OutRow),
      blocks.length = (optionNames t).length ∧
      out.rows = (blocks.map fun b => b ++ [postDivider]).join ∧
      (∀ b ∈ blocks, ∀ r ∈ b, r.ageFrom ≠ none) ∧
      postDivider = ⟨.s "", .s "", none, none, .s "", .s "", .s "", .s "", .s "", .na, .na⟩ := by
  rcases transform_ok_elim h with ⟨hf, raw, hraw, hmp⟩
  have hopt : optionNames t' = optionNames t := by
    unfold optionNames
    rw [ffillTable_cols hf]
  have hP : ∀ (opt : String) (out2 : List RawRow) (n : Nat),
      processRows t' opt t'.rows 0 = .ok (out2, n) →
      ∀ r ∈ out2, ∃ a b, r.ageFrom = Cell.i a ∧ r.ageTo = Cell.i b := by
    intro opt out2 n hpr r hr
    rcases processRows_mem hpr r hr with ⟨row, _, c1, rs, n1, hprow, hmem⟩
    exact processRow_ages hprow r hmem
  unfold buildRaw at hraw
  rcases buildRawGo_blocks _ hP (optionNames t') raw hraw with ⟨bs, hlen, hjoin, hbs⟩
  rw [hjoin] at hmp
  rcases mapPost_blocks bs hmp with ⟨pbs, hplen, hrows, hpmem⟩
  refine ⟨pbs, by rw [hplen, hlen, hopt], hrows, ?_, rfl⟩
  intro pb hpb r hr
  rcases hpmem pb hpb with ⟨b, hb, hmpb⟩
  rcases mapPost_mem hmpb r hr with ⟨x, hx, hpp⟩
  rcases hbs b hb x hx with ⟨a, b2, hxa, hxb⟩
  rcases postprocess_int_ages hxa hxb hpp with ⟨h1, _⟩
  rw [h1]
  simp

/-- Witness for the amended C5 at a concrete one-option table. -/
theorem c5_amended_divider_rows_witness :
    transform exOne = .ok (exOne,
      ⟨[⟨.s "P", .s "Z", some 30, some 30, .s "Member Dependent", .i 100, .i 100, .i 100,
         .s "$500", .s "3/1/2024", .s "12/31/2024"⟩, postDivider]⟩) ∧
    (∃ blocks : List (List OutRow),
      blocks.length = (optionNames exOne).length ∧
      (⟨[⟨.s "P", .s "Z", some 30, some 30, .s "Member Dependent", .i 100, .i 100, .i 100,
          .s "$500", .s "3/1/2024", .s "12/31/2024"⟩, postDivider]⟩ : OutTable).rows =
        (blocks.map fun b => b ++ [postDivider]).join ∧
      (∀ b ∈ blocks, ∀ r ∈ b, r.ageFrom ≠ none) ∧
      postDivider = ⟨.s "", .s "", none, none, .s "", .s "", .s "", .s "", .s "", .na, .na⟩) :=
  ⟨by decide,
   @c5_amended_divider_rows exOne exOne
     ⟨[⟨.s "P", .s "Z", some 30, some 30, .s "Member Dependent", .i 100, .i 100, .i 100,
        .s "$500", .s "3/1/2024", .s "12/31/2024"⟩, postDivider]⟩ (by decide)⟩

/-! Claim C6. -/

/-- Claim C6 as stated is false for the "no option columns" half: a table
with an `Age` column and the four metadata columns but no option columns
makes `option_names` (line 21) empty, both loops run zero times, and
`transform` succeeds with an output table containing no rows — there is
no `SchemaError` and no failure. -/
theorem c6_no_option_columns_succeeds_cx :
    transform exNoOptions = .ok (exNoOptions, ⟨[]⟩) := by decide

/-- Claim C6 (amended): a missing `Age` column is indeed fatal — with the
metadata columns present, at least one option column and at least one
row, processing the first row raises `KeyError("Age")` and no output is
returned (the error is a `KeyError`, not a distinct `SchemaError` type).
But with no option columns the transformation does not fail: it returns
an output table with zero rows. -/
theorem c6_amended_schema_behavior :
    (∀ t : Table, "Age" ∉ t.cols → "PlanCode" ∈ t.cols → "RateZone" ∈ t.cols →
      "DateFrom" ∈ t.cols → "DateTo" ∈ t.cols → optionNames t ≠ [] → t.rows ≠ [] →
      transform t = .error (.keyError "Age")) ∧
    (∀ t : Table, "PlanCode" ∈ t.cols → "RateZone" ∈ t.cols → "DateFrom" ∈ t.cols →
      "DateTo" ∈ t.cols → optionNames t = [] →
      ∃ t1, transform t = .ok (t1, ⟨[]⟩)) := by
  constructor
  · intro t hAge hp hr hdf hdt hopts hrows
    rcases ffillTable_exists hp hr hdf hdt with ⟨t1, hf⟩
    have hcols := ffillTable_cols hf
    have hlen := ffillTable_rows_length hf
    have hAge1 : "Age" ∉ t1.cols := by rw [hcols]; exact hAge
    have hopt1 : optionNames t1 = optionNames t := by
      unfold optionNames
      rw [hcols]
    obtain ⟨o, os, ho⟩ : ∃ o os, optionNames t1 = o :: os := by
      rw [hopt1]
      cases hx : optionNames t with
      | nil => exact absurd hx hopts
      | cons o os => exact ⟨o, os, rfl⟩
    obtain ⟨row, rest, hrow⟩ : ∃ row rest, t1.rows = row :: rest := by
      cases hx : t1.rows with
      | nil => rw [hx] at hlen; cases hy : t.rows with
        | nil => exact absurd hy hrows
        | cons a l => rw [hy] at hlen; simp at hlen
      | cons row rest => exact ⟨row, rest, rfl⟩
    have hpr : processRow t1 o 0 row = .error (.keyError "Age") := by
      simp only [processRow, getCellE, colIdx?_eq_none hAge1]
    have hprs : processRows t1 o t1.rows 0 = .error (.keyError "Age") := by
      rw [hrow]
      simp only [processRows, hpr]
    have hpo : processOption t1 o = .error (.keyError "Age") := by
      simp only [processOption, hprs]
    have hbr : buildRaw t1 = .error (.keyError "Age") := by
      unfold buildRaw
      rw [ho]
      simp only [buildRawGo, hpo]
    simp only [transform, hf, hbr]
  · intro t hp hr hdf hdt hopt
    rcases ffillTable_exists hp hr hdf hdt with ⟨t1, hf⟩
    have hopt1 : optionNames t1 = [] := by
      unfold optionNames
      rw [ffillTable_cols hf]
      unfold optionNames at hopt
      exact hopt
    refine ⟨t1, ?_⟩
    have hbr : buildRaw t1 = .ok [] := by
      unfold buildRaw
      rw [hopt1]
      rfl
    simp only [transform, hf, hbr, mapPost]

/-- Witness for the amended C6: a concrete table without `Age` fails with
`KeyError("Age")`, and a concrete table without option columns succeeds
with an empty output. -/
theorem c6_amended_schema_behavior_witness :
    transform exNoAge = .error (.keyError "Age") ∧
    (∃ t1, transform exNoOptions = .ok (t1, ⟨[]⟩)) :=
  ⟨c6_amended_schema_behavior.1 exNoAge (by decide) (by decide) (by decide) (by decide)
     (by decide) (by decide) (by decide),
   c6_amended_schema_behavior.2 exNoOptions (by decide) (by decide) (by decide) (by decide)
     (by decide)⟩

/-! Claim C7. -/

/-- Claim C7: a missing premium cell (lines 40-41 of the source) makes
the `(age-row, option)` pair emit no output rows and leaves the
per-option counter unchanged, so the skipped row does not consume one of
the first-7 `"Member Dependent"` positions. -/
theorem c7_missing_premium_skipped {t : Table} {opt : String} {count : Nat}
    {row : List Cell} {c premCell : Cell} {p : Int × Int}
    (hAge : getCellE t row "Age" = .ok c)
    (hparse : parseAge (pyStrip (pyStr c)) = some p)
    (hprem : getCellE t row opt = .ok premCell) (hna : premCell.isNA = true) :
    processRow t opt count row = .ok ([], count) :=
  processRow_skip hAge hparse hprem hna

/-- Witness for C7 at a concrete row with a missing premium, at counter
value 3. -/
theorem c7_missing_premium_skipped_witness :
    getCellE exHalf exRowNA "Age" = .ok (.s "40") ∧
    parseAge (pyStrip (pyStr (Cell.s "40"))) = some (40, 40) ∧
    getCellE exHalf exRowNA "$500" = .ok .na ∧
    Cell.na.isNA = true ∧
    processRow exHalf "$500" 3 exRowNA = .ok ([], 3) :=
  ⟨by decide, by decide, by decide, by decide,
   @c7_missing_premium_skipped exHalf "$500" 3 exRowNA (.s "40") .na (40, 40)
     (by decide) (by decide) (by decide) (by decide)⟩

/-! Claim C8. -/

/-- Claim C8: for every input whose `Age` cells all parse with
`AgeFrom ≤ AgeTo`, every non-divider row of a successful transform's
output satisfies `AgeFrom ≤ AgeTo` (divider rows have null ages), and
every row produced by the explosion branch has `AgeFrom = AgeTo`. -/
theorem c8_age_invariants :
    (∀ (t t' : Table) (out : OutTable), transform t = .ok (t', out) →
      (∀ row ∈ t.rows, validAgeRowB t row = true) →
      ∀ r ∈ out.rows, r.ageFrom = none ∨
        ∃ a b, r.ageFrom = some a ∧ r.ageTo = some b ∧ a ≤ b) ∧
    (∀ (t : Table) (opt : String) (count : Nat) (row : List Cell) (rs : List RawRow)
      (n : Nat) (c : Cell) (af bt : Int),
      processRow t opt count row = .ok (rs, n) →
      getCellE t row "Age" = .ok c → parseAge (pyStrip (pyStr c)) = some (af, bt) →
      (7 ≤ count ∨ (18 ≤ af ∧ af ≤ 23)) → ∀ r ∈ rs, r.ageFrom = r.ageTo) := by
  constructor
  · intro t t' out h hv r hr
    rcases transform_ok_elim h with ⟨hf, raw, hraw, hmp⟩
    have hv' := ffillTable_validAges hf hv
    have hP : ∀ (opt : String) (out2 : List RawRow) (n : Nat),
        processRows t' opt t'.rows 0 = .ok (out2, n) →
        ∀ r2 ∈ out2, ∃ a b, r2.ageFrom = Cell.i a ∧ r2.ageTo = Cell.i b ∧ a ≤ b := by
      intro opt out2 n hpr r2 hr2
      rcases processRows_mem hpr r2 hr2 with ⟨row, hrow, c1, rs, n1, hprow, hmem⟩
      exact processRow_ages_le hprow (hv' row hrow) r2 hmem
    unfold buildRaw at hraw
    rcases buildRawGo_blocks _ hP (optionNames t') raw hraw with ⟨bs, _, hjoin, hbs⟩
    rw [hjoin] at hmp
    rcases mapPost_blocks bs hmp with ⟨pbs, _, hrows, hpmem⟩
    rw [hrows] at hr
    rcases List.mem_join.mp hr with ⟨s, hs, hrs⟩
    rcases List.mem_map.mp hs with ⟨pb, hpb, rfl⟩
    rcases List.mem_append.mp hrs with hrb | hrd
    · right
      rcases hpmem pb hpb with ⟨b, hb, hmpb⟩
      rcases mapPost_mem hmpb r hrb with ⟨x, hx, hpp⟩
      rcases hbs b hb x hx with ⟨a, b2, hxa, hxb, hab⟩
      rcases postprocess_int_ages hxa hxb hpp with ⟨h1, h2⟩
      exact ⟨a, b2, h1, h2, hab⟩
    · left
      rcases List.mem_singleton.mp hrd with rfl
      rfl
  · intro t opt count row rs n c af bt h hAge hparse hcase r hr
    rcases processRow_ok_elim h with ⟨c2, af2, bt2, premCell2, hAge2, hparse2, _, hcases⟩
    have hceq : c = c2 := by
      have h1 : (Except.ok c : Except Err Cell) = .ok c2 := by rw [← hAge, hAge2]
      injection h1
    subst hceq
    have h2 : (af, bt) = (af2, bt2) := Option.some_inj.mp (hparse.symm.trans hparse2)
    injection h2 with ha hb
    subst ha
    subst hb
    rcases hcases with ⟨_, hrs, _⟩ | ⟨_, _, q, pc, rz, dfr, dto, _, _, _, _, _, hexp, _⟩
    · rw [hrs] at hr
      simp at hr
    · rw [hexp hcase] at hr
      rcases List.mem_map.mp hr with ⟨a, _, rfl⟩
      rfl

/-- Witness for C8: the table-level invariant at a concrete one-row
transform, and the explosion-branch invariant at the `18-23` row. -/
theorem c8_age_invariants_witness :
    transform exOne = .ok (exOne,
      ⟨[⟨.s "P", .s "Z", some 30, some 30, .s "Member Dependent", .i 100, .i 100, .i 100,
         .s "$500", .s "3/1/2024", .s "12/31/2024"⟩, postDivider]⟩) ∧
    (∀ r ∈ (⟨[⟨.s "P", .s "Z", some 30, some 30, .s "Member Dependent", .i 100, .i 100,
         .i 100, .s "$500", .s "3/1/2024", .s "12/31/2024"⟩, postDivider]⟩ : OutTable).rows,
      r.ageFrom = none ∨ ∃ a b, r.ageFrom = some a ∧ r.ageTo = some b ∧ a ≤ b) ∧
    (∀ r ∈ (intRange 18 23).map fun a =>
        mkRaw (.s "P") (.s "Z") a a "Member Dependent" 100 "$500"
          (.date 1 1 2024) (.date 2 1 2024),
      r.ageFrom = r.ageTo) :=
  ⟨by decide,
   c8_age_invariants.1 exOne exOne
     ⟨[⟨.s "P", .s "Z", some 30, some 30, .s "Member Dependent", .i 100, .i 100, .i 100,
        .s "$500", .s "3/1/2024", .s "12/31/2024"⟩, postDivider]⟩ (by decide) (by decide),
   c8_age_invariants.2 exHalf "$500" 0 exRowRange
     ((intRange 18 23).map fun a =>
       mkRaw (.s "P") (.s "Z") a a "Member Dependent" 100 "$500"
         (.date 1 1 2024) (.date 2 1 2024)) 1 (.s "18-23") 18 23
     (by decide) (by decide) (by decide) (Or.inr (by decide))⟩

/-! Claim C9. -/

/-- Claim C9: `transform` mutates its argument only by forward-filling
the four metadata columns in place (lines 12-15 of the source); on a
rectangular input, the returned table has the same columns, every column
not named `PlanCode`, `RateZone`, `DateFrom` or `DateTo` — in particular
`Age` and every deductible-option column — is unchanged, and each of the
four metadata columns equals the forward-fill of the original. -/
theorem c9_frame_effect {t t' : Table} {out : OutTable} (hwf : wf t)
    (h : transform t = .ok (t', out)) :
    t'.cols = t.cols ∧
    getColE t' "Age" = getColE t "Age" ∧
    (∀ name, name ∉ metaNames → getColE t' name = getColE t name) ∧
    (∀ name ∈ metaNames, ∃ col, getColE t name = .ok col ∧
      getColE t' name = .ok (ffillList col none)) := by
  rcases transform_ok_elim h with ⟨hf, _⟩
  exact ⟨ffillTable_cols hf,
    ffillTable_getColE_ne (by decide) hf,
    fun name hn => ffillTable_getColE_ne hn hf,
    ffillTable_meta hwf hf⟩

/-- Witness for C9 at a concrete rectangular table. -/
theorem c9_frame_effect_witness :
    wf exOne ∧
    transform exOne = .ok (exOne,
      ⟨[⟨.s "P", .s "Z", some 30, some 30, .s "Member Dependent", .i 100, .i 100, .i 100,
         .s "$500", .s "3/1/2024", .s "12/31/2024"⟩, postDivider]⟩) ∧
    (exOne.cols = exOne.cols ∧
     getColE exOne "Age" = getColE exOne "Age" ∧
     (∀ name, name ∉ metaNames → getColE exOne name = getColE exOne name) ∧
     (∀ name ∈ metaNames, ∃ col, getColE exOne name = .ok col ∧
       getColE exOne name = .ok (ffillList col none))) :=
  ⟨by unfold wf; decide, by decide,
   @c9_frame_effect exOne exOne
     ⟨[⟨.s "P", .s "Z", some 30, some 30, .s "Member Dependent", .i 100, .i 100, .i 100,
        .s "$500", .s "3/1/2024", .s "12/31/2024"⟩, postDivider]⟩ (by unfold wf; decide)
     (by decide)⟩

/-! Claim C10. -/

/-- Claim C10: the `Age` cell is coerced to a string (`str(...)`) and
stripped before parsing (line 28 of the source, `pyStrip (pyStr ·)` in
this embedding), so a non-string cell such as the integer 34 parses
exactly like its clean string form, and padded strings such as
`" 18-23 "` parse like their stripped forms. -/
theorem c10_age_coercion :
    (∀ n : Int, parseAge (pyStrip (pyStr (Cell.i n))) =
      parseAge (pyStrip (pyStr (Cell.s (toString n))))) ∧
    parseAge (pyStrip (pyStr (Cell.i 34))) = some (34, 34) ∧
    parseAge (pyStrip (pyStr (Cell.s " 18-23 "))) = some (18, 23) ∧
    parseAge (pyStrip (pyStr (Cell.s "18-23"))) = some (18, 23) :=
  ⟨fun _ => rfl, by decide, by decide, by decide⟩
